import Mathlib

/-!
Verification of the spectrum-analyzer repository.

Shallow embedding of the core of the repository:
* `Analyzer`, `AnalyzerResult`, `Analyzer.process` from
  `spectrum-analyzer/src/analyzer.rs`;
* `SamplesIterator`, `ChannelSamples`, `ChannelSamplesIterator` from
  `src/buffer/samples.rs`;
* the host-side `Buffer` type and the external FFT routine (`rustfft`) are
  not part of the repository's sources, so they are modelled from the spec.

Samples and sample rates are 32-bit floats in the source; they are embedded
as real numbers, so claims about structure, ordering, signs and data flow
are captured exactly, while bit-level rounding behaviour is out of scope.
-/

open scoped BigOperators

/-- Modelled from the spec: the Sample Buffer (the `nih_plug::buffer::Buffer`
type, whose defining module is not among the repository sources) owns "an
ordered sequence of channels; each channel is a mutable view over N 32-bit
floating-point samples". -/
structure Buffer where
  channels : List (List ℝ)

/-- Modelled from the spec: `channel_count() -> usize`, the
"number of bound channels; 0 when unbound". -/
def Buffer.channel_count (b : Buffer) : Nat :=
  b.channels.length

/-- Modelled from the spec: `sample_count() -> usize`, the "samples per
channel in the current block; 0 when unbound".  Under the buffer invariant
all channels share one length, so the length of the first channel is that
shared sample count. -/
def Buffer.sample_count (b : Buffer) : Nat :=
  match b.channels with
  | [] => 0
  | c :: _ => c.length

/-- Modelled from the spec: the external transform library (`rustfft`, not
part of this repository) computes an unnormalized forward discrete Fourier
transform of the input's length, in place.  The embedding returns the
transformed sequence instead of mutating: bin `k` is
`Σ_n x[n] · exp(-2πi·k·n/N)`. -/
noncomputable def dft (x : List ℂ) : List ℂ :=
  (List.range x.length).map fun (k : Nat) =>
    (List.range x.length).foldl
      (fun (acc : ℂ) (n : Nat) =>
        acc + x.getD n 0 *
          Complex.exp (-(2 * (Real.pi : ℂ) * Complex.I * (k : ℂ) * (n : ℂ)) /
            (x.length : ℂ)))
      0

theorem dft_length (x : List ℂ) : (dft x).length = x.length := by
  unfold dft
  rw [List.length_map, List.length_range]

/-- From `analyzer.rs`: `pub struct AnalyzerResult { pub frequencies: Vec<f32>,
pub magnitudes: Vec<f32> }`. -/
structure AnalyzerResult where
  frequencies : List ℝ
  magnitudes : List ℝ

/-- From `analyzer.rs`: `pub struct Analyzer { fft_planner: FftPlanner<f32>,
sample_rate: f32 }`.  The planner holds no observable state (the spec calls
plan reuse "a pure performance optimization, not a correctness requirement"),
so only the sample rate is carried. -/
structure Analyzer where
  sample_rate : ℝ

/-- From `analyzer.rs`: `Analyzer::new(sample_rate: f32)` constructs the
analyzer, storing the given sample rate unchanged. -/
def Analyzer.new (sample_rate : ℝ) : Analyzer :=
  ⟨sample_rate⟩

/-- From `analyzer.rs`: `Analyzer::set_sample_rate`, which overwrites the
stored sample rate. -/
def Analyzer.set_sample_rate (_a : Analyzer) (sample_rate : ℝ) : Analyzer :=
  ⟨sample_rate⟩

/-- The per-channel body of the loop in `Analyzer::process`
(`analyzer.rs` lines 39-63): copy the channel's samples into complex
numbers (real = sample, imaginary = 0), transform the copy in place, then
take magnitude `sqrt(re² + im²)` of bins `0 .. fft_size/2` and frequency
`i * sample_rate / fft_size` for the same bins. -/
noncomputable def Analyzer.processChannel (sample_rate : ℝ) (channel_samples : List ℝ) :
    AnalyzerResult :=
  let complex_samples : List ℂ := channel_samples.map fun s => ⟨s, 0⟩
  let transformed := dft complex_samples
  let fft_size := transformed.length
  let magnitudes := (List.range (fft_size / 2)).map fun (i : Nat) =>
    Real.sqrt ((transformed.getD i 0).re ^ 2 + (transformed.getD i 0).im ^ 2)
  let frequencies := (List.range (fft_size / 2)).map fun (i : Nat) =>
    (i : ℝ) * sample_rate / (fft_size : ℝ)
  ⟨frequencies, magnitudes⟩

/-- From `analyzer.rs`: `Analyzer::process(&mut self, buffer: &mut Buffer)
-> Vec<AnalyzerResult>`: one `AnalyzerResult` per channel, in channel
order.  The Rust function takes the buffer by mutable reference, so the
embedding passes the buffer state through explicitly and returns the
post-call buffer alongside the results; the body only ever reads the
channel slices.  The transform is planned for `buffer.samples()`, which
under the equal-length buffer invariant is each channel's own length. -/
noncomputable def Analyzer.process (a : Analyzer) (buffer : Buffer) :
    List AnalyzerResult × Buffer :=
  (buffer.channels.map (Analyzer.processChannel a.sample_rate), buffer)

theorem processChannel_frequencies_length (sr : ℝ) (ch : List ℝ) :
    (Analyzer.processChannel sr ch).frequencies.length = ch.length / 2 := by
  unfold Analyzer.processChannel
  rw [List.length_map, List.length_range, dft_length, List.length_map]

theorem processChannel_magnitudes_length (sr : ℝ) (ch : List ℝ) :
    (Analyzer.processChannel sr ch).magnitudes.length = ch.length / 2 := by
  unfold Analyzer.processChannel
  rw [List.length_map, List.length_range, dft_length, List.length_map]

theorem process_results_length (a : Analyzer) (b : Buffer) :
    (a.process b).1.length = b.channel_count := by
  simp [Analyzer.process, Buffer.channel_count]

/-- From `src/buffer/samples.rs`: `SamplesIterator` holds the raw channel
slices (`buffers: *mut [&mut [f32]]`, embedded as the list of channels), the
next sample index `current_sample`, and the one-past-the-end index
`samples_end`. -/
structure SamplesIterator where
  buffers : List (List ℝ)
  current_sample : Nat
  samples_end : Nat

/-- From `src/buffer/samples.rs`: `ChannelSamples` is the cross-channel view
for one sample index: the channel slices plus `current_sample`. -/
structure ChannelSamples where
  buffers : List (List ℝ)
  current_sample : Nat

/-- From `src/buffer/samples.rs`: `ChannelSamplesIterator` walks the
channels of one `ChannelSamples` view, tracking `current_channel`. -/
structure ChannelSamplesIterator where
  buffers : List (List ℝ)
  current_sample : Nat
  current_channel : Nat

/-- From `src/buffer/samples.rs`: `Iterator::next` for `SamplesIterator`:
while `current_sample < samples_end`, yield a `ChannelSamples` view at
`current_sample` and advance `current_sample` by one; otherwise yield
nothing.  The Rust method mutates `self`, so the embedding returns the
advanced iterator alongside the item. -/
def SamplesIterator.next (it : SamplesIterator) :
    Option (ChannelSamples × SamplesIterator) :=
  if it.current_sample < it.samples_end then
    some (⟨it.buffers, it.current_sample⟩,
      ⟨it.buffers, it.current_sample + 1, it.samples_end⟩)
  else
    none

/-- Exhaust a `SamplesIterator`: the list of all items its `next` yields, in
order, together with the final iterator state.  Terminates because each step
narrows `samples_end - current_sample`. -/
def SamplesIterator.run (it : SamplesIterator) :
    List ChannelSamples × SamplesIterator :=
  if h : it.current_sample < it.samples_end then
    let r := SamplesIterator.run ⟨it.buffers, it.current_sample + 1, it.samples_end⟩
    (ChannelSamples.mk it.buffers it.current_sample :: r.1, r.2)
  else
    ([], it)
termination_by it.samples_end - it.current_sample
decreasing_by
  omega

/-- `run` takes exactly the steps `next` dictates: it stops when `next`
yields nothing, and otherwise records the yielded item and continues from
the advanced iterator. -/
theorem samplesIterator_run_matches_next (it : SamplesIterator) :
    it.run = match it.next with
      | none => ([], it)
      | some (v, it2) => (v :: it2.run.1, it2.run.2) := by
  by_cases h : it.current_sample < it.samples_end
  · rw [SamplesIterator.run.eq_def]
    simp [h, SamplesIterator.next]
  · rw [SamplesIterator.run.eq_def]
    simp [h, SamplesIterator.next]

/-- From `src/buffer/samples.rs`: `IntoIterator::into_iter` for
`ChannelSamples` starts a `ChannelSamplesIterator` at `current_channel = 0`
over the same buffers and sample index. -/
def ChannelSamples.intoIter (cs : ChannelSamples) : ChannelSamplesIterator :=
  ⟨cs.buffers, cs.current_sample, 0⟩

/-- From `src/buffer/samples.rs`: `Iterator::next` for
`ChannelSamplesIterator`: while `current_channel < buffers.len()`, read
`buffers[current_channel][current_sample]` with unchecked indexing and
advance `current_channel`.  The unchecked double indexing is embedded
totally as `Option`-valued indexing, so an out-of-bounds access shows up as
an inner `none`. -/
def ChannelSamplesIterator.next (it : ChannelSamplesIterator) :
    Option (Option ℝ × ChannelSamplesIterator) :=
  if it.current_channel < it.buffers.length then
    some ((it.buffers.get? it.current_channel).bind
        (fun ch => ch.get? it.current_sample),
      ⟨it.buffers, it.current_sample, it.current_channel + 1⟩)
  else
    none

/-- Exhaust a `ChannelSamplesIterator`: all items its `next` yields, in
order, with the final iterator state. -/
def ChannelSamplesIterator.run (it : ChannelSamplesIterator) :
    List (Option ℝ) × ChannelSamplesIterator :=
  if h : it.current_channel < it.buffers.length then
    let r := ChannelSamplesIterator.run
      ⟨it.buffers, it.current_sample, it.current_channel + 1⟩
    (((it.buffers.get? it.current_channel).bind
        (fun ch => ch.get? it.current_sample)) :: r.1, r.2)
  else
    ([], it)
termination_by it.buffers.length - it.current_channel
decreasing_by
  omega

/-- `run` for `ChannelSamplesIterator` takes exactly the steps `next`
dictates. -/
theorem channelSamplesIterator_run_matches_next (it : ChannelSamplesIterator) :
    it.run = match it.next with
      | none => ([], it)
      | some (v, it2) => (v :: it2.run.1, it2.run.2) := by
  by_cases h : it.current_channel < it.buffers.length
  · rw [ChannelSamplesIterator.run.eq_def]
    simp [h, ChannelSamplesIterator.next]
  · rw [ChannelSamplesIterator.run.eq_def]
    simp [h, ChannelSamplesIterator.next]

/-- C1: for every buffer whose channels all have the same length `N`,
`Analyzer::process` returns exactly `channel_count()` results, one per
channel in channel order, each with `frequencies.len() == magnitudes.len()
== N / 2` (integer division); for a buffer with zero channels it returns
the empty sequence without error. -/
theorem process_result_shape (a : Analyzer) (b : Buffer) (N : Nat)
    (h : ∀ ch ∈ b.channels, ch.length = N) :
    (a.process b).1.length = b.channel_count ∧
    (∀ r ∈ (a.process b).1,
      r.frequencies.length = N / 2 ∧ r.magnitudes.length = N / 2) ∧
    (b.channel_count = 0 → (a.process b).1 = []) := by
  refine ⟨process_results_length a b, ?_, ?_⟩
  · intro r hr
    simp only [Analyzer.process, List.mem_map] at hr
    obtain ⟨ch, hch, rfl⟩ := hr
    rw [processChannel_frequencies_length, processChannel_magnitudes_length, h ch hch]
    exact ⟨rfl, rfl⟩
  · intro h0
    have hlen := process_results_length a b
    rw [h0] at hlen
    exact List.length_eq_zero.mp hlen

/-- Witness for C1 on a concrete two-channel buffer of length 2. -/
theorem process_result_shape_witness :
    (∀ ch ∈ (Buffer.mk [[1, 2], [3, 4]]).channels, ch.length = 2) ∧
    (((Analyzer.new 44100).process (Buffer.mk [[1, 2], [3, 4]])).1.length
        = (Buffer.mk [[1, 2], [3, 4]]).channel_count ∧
      (∀ r ∈ ((Analyzer.new 44100).process (Buffer.mk [[1, 2], [3, 4]])).1,
        r.frequencies.length = 2 / 2 ∧ r.magnitudes.length = 2 / 2) ∧
      ((Buffer.mk [[1, 2], [3, 4]]).channel_count = 0 →
        ((Analyzer.new 44100).process (Buffer.mk [[1, 2], [3, 4]])).1 = [])) :=
  ⟨by simp, process_result_shape (Analyzer.new 44100)
    (Buffer.mk [[1, 2], [3, 4]]) 2 (by simp)⟩

/-- C2: the spec requires `process` on a buffer with at least one channel of
zero samples to fail with an `InvalidBufferLength` condition before
producing any result.  The code has no such guard and no error path at all
(`process` returns a plain `Vec<AnalyzerResult>`): on a one-channel buffer
of zero samples it runs the per-channel loop and returns one degenerate
result with empty `frequencies` and `magnitudes` instead of failing. -/
theorem process_zero_length_no_failure :
    ((Analyzer.new 44100).process (Buffer.mk [[]])).1
      = [AnalyzerResult.mk [] []] := rfl

/-- C3: the spec requires `Analyzer::new` and `set_sample_rate` to reject a
non-positive sample rate with an `InvalidConfiguration` condition.  The
code performs no validation: both store the rate unchanged, so a
non-positive rate is accepted and `sample_rate()` simply returns it. -/
theorem new_accepts_nonpositive_rate :
    (Analyzer.new (-1)).sample_rate = -1 ∧
    ((Analyzer.new 44100).set_sample_rate 0).sample_rate = 0 :=
  ⟨rfl, rfl⟩

/-- C6: every magnitude in every `AnalyzerResult` returned by
`Analyzer::process` is `≥ 0`, for all input buffers: each magnitude is
`sqrt(re² + im²)` of a transform bin. -/
theorem process_magnitudes_nonneg (a : Analyzer) (b : Buffer) :
    ∀ r ∈ (a.process b).1, ∀ m ∈ r.magnitudes, 0 ≤ m := by
  intro r hr m hm
  simp only [Analyzer.process, List.mem_map] at hr
  obtain ⟨ch, _, rfl⟩ := hr
  unfold Analyzer.processChannel at hm
  simp only [List.mem_map] at hm
  obtain ⟨i, _, rfl⟩ := hm
  exact Real.sqrt_nonneg _

/-- Witness for C6 at the one-channel buffer `[[1, 2]]`, bin 0. -/
theorem process_magnitudes_nonneg_witness :
    0 ≤ (Analyzer.processChannel 44100 [1, 2]).magnitudes.getD 0 0 :=
  process_magnitudes_nonneg (Analyzer.new 44100) (Buffer.mk [[1, 2]])
    (Analyzer.processChannel 44100 [1, 2])
    (by simp [Analyzer.process, Analyzer.new])
    ((Analyzer.processChannel 44100 [1, 2]).magnitudes.getD 0 0)
    (by
      have hlen : (Analyzer.processChannel 44100 [1, 2]).magnitudes.length = 1 := by
        rw [processChannel_magnitudes_length]
        simp
      rw [List.getD_eq_getElem _ _ (by rw [hlen]; norm_num)]
      exact List.getElem_mem _)

/-- C7: `Analyzer::process` never modifies the buffer's sample storage: the
transform runs in place only on the private complex-number copy made per
channel, so the post-call buffer state equals the pre-call state. -/
theorem process_preserves_buffer (a : Analyzer) (b : Buffer) :
    (a.process b).2 = b := rfl

/-- C8: two `process` calls on the same sample content with different sample
rates return identical `magnitudes` in every result; the sample rate flows
only into the `frequencies` axis. -/
theorem process_magnitudes_independent_of_rate (sr1 sr2 : ℝ) (b : Buffer) :
    ((Analyzer.new sr1).process b).1.map AnalyzerResult.magnitudes
      = ((Analyzer.new sr2).process b).1.map AnalyzerResult.magnitudes := by
  unfold Analyzer.process
  rw [List.map_map, List.map_map]
  rfl

/-- Bin `i` of the frequency axis computed by the per-channel body:
`i * sample_rate / fft_size`. -/
theorem processChannel_frequencies_getD (sr : ℝ) (ch : List ℝ) (i : Nat)
    (hi : i < ch.length / 2) :
    (Analyzer.processChannel sr ch).frequencies.getD i 0
      = (i : ℝ) * sr / (ch.length : ℝ) := by
  unfold Analyzer.processChannel
  rw [List.getD_eq_getElem _ _
    (by rw [List.length_map, List.length_range, dft_length, List.length_map]; exact hi)]
  simp only [List.getElem_map, List.getElem_range]
  rw [dft_length, List.length_map]

/-- Bin 0 of the frequency axis is 0 (also when the axis is empty, where
`getD` falls back to the default 0). -/
theorem processChannel_frequencies_zero (sr : ℝ) (ch : List ℝ) :
    (Analyzer.processChannel sr ch).frequencies.getD 0 0 = 0 := by
  rcases Nat.eq_zero_or_pos (ch.length / 2) with h | h
  · rw [List.getD_eq_default]
    rw [processChannel_frequencies_length, h]
  · rw [processChannel_frequencies_getD sr ch 0 h]
    simp

/-- C4: for every channel analyzed with sample count `N`, every bin index
`i < N/2` satisfies `frequencies[i] = i * sample_rate / N`; in particular
`frequencies[0] = 0` (DC), and the last returned bin (the formula at
`i = N/2 - 1`) is at `(N/2 - 1) * sample_rate / N`. -/
theorem process_frequencies_formula (a : Analyzer) (b : Buffer) (c i : Nat)
    (hc : c < b.channel_count)
    (hi : i < (b.channels.getD c []).length / 2) :
    ((a.process b).1.getD c (AnalyzerResult.mk [] [])).frequencies.getD i 0
        = (i : ℝ) * a.sample_rate / ((b.channels.getD c []).length : ℝ) ∧
    ((a.process b).1.getD c (AnalyzerResult.mk [] [])).frequencies.getD 0 0 = 0 := by
  have hc' : c < b.channels.length := hc
  have hres : (a.process b).1.getD c (AnalyzerResult.mk [] [])
      = Analyzer.processChannel a.sample_rate (b.channels.getD c []) := by
    rw [List.getD_eq_getElem _ _ (by simpa [Analyzer.process] using hc')]
    rw [List.getD_eq_getElem _ _ hc']
    simp [Analyzer.process]
  rw [hres]
  exact ⟨processChannel_frequencies_getD _ _ _ hi,
    processChannel_frequencies_zero _ _⟩

/-- Witness for C4: one channel of four samples at 44100 Hz, bin 1. -/
theorem process_frequencies_formula_witness :
    (0 < (Buffer.mk [[1, 2, 3, 4]]).channel_count ∧
      1 < ((Buffer.mk [[1, 2, 3, 4]]).channels.getD 0 []).length / 2) ∧
    ((((Analyzer.new 44100).process (Buffer.mk [[1, 2, 3, 4]])).1.getD 0
          (AnalyzerResult.mk [] [])).frequencies.getD 1 0
        = ((1 : Nat) : ℝ) * (Analyzer.new 44100).sample_rate
            / ((((Buffer.mk [[1, 2, 3, 4]]).channels.getD 0 []).length : ℕ) : ℝ) ∧
      (((Analyzer.new 44100).process (Buffer.mk [[1, 2, 3, 4]])).1.getD 0
          (AnalyzerResult.mk [] [])).frequencies.getD 0 0 = 0) :=
  ⟨⟨by simp [Buffer.channel_count], by simp⟩,
    process_frequencies_formula (Analyzer.new 44100) (Buffer.mk [[1, 2, 3, 4]]) 0 1
      (by simp [Buffer.channel_count]) (by simp)⟩

/-- C9: for every `SamplesIterator` with `current_sample ≤ samples_end`,
the per-sample iteration is finite and yields exactly
`samples_end - current_sample` cross-channel views at the consecutive
ascending sample indices `current_sample, …, samples_end - 1`, after which
`next` returns `None`. -/
theorem samples_iteration (it : SamplesIterator)
    (h : it.current_sample ≤ it.samples_end) :
    it.run.1 = (List.range' it.current_sample
        (it.samples_end - it.current_sample)).map
      (fun j => ChannelSamples.mk it.buffers j) ∧
    it.run.2.next = none := by
  obtain ⟨n, hn⟩ : ∃ n, it.samples_end - it.current_sample = n := ⟨_, rfl⟩
  induction n generalizing it with
  | zero =>
    have hend : ¬ it.current_sample < it.samples_end := by omega
    rw [SamplesIterator.run.eq_def]
    simp [hend, SamplesIterator.next, hn]
  | succ n ih =>
    have hlt : it.current_sample < it.samples_end := by omega
    obtain ⟨ih1, ih2⟩ := ih ⟨it.buffers, it.current_sample + 1, it.samples_end⟩
      (by simp; omega) (by simp; omega)
    rw [SamplesIterator.run.eq_def]
    simp only [hlt, dite_true]
    refine ⟨?_, ih2⟩
    rw [hn, List.range'_succ, List.map_cons, ih1]
    have hn2 : it.samples_end - (it.current_sample + 1) = n := by omega
    simp [hn2]

/-- Witness for C9: a one-channel iterator from sample 1 to 3. -/
theorem samples_iteration_witness :
    (SamplesIterator.mk [[1, 2, 3]] 1 3).current_sample
        ≤ (SamplesIterator.mk [[1, 2, 3]] 1 3).samples_end ∧
    ((SamplesIterator.mk [[1, 2, 3]] 1 3).run.1
        = (List.range' 1 2).map (fun j => ChannelSamples.mk [[1, 2, 3]] j) ∧
      (SamplesIterator.mk [[1, 2, 3]] 1 3).run.2.next = none) :=
  ⟨by simp, samples_iteration (SamplesIterator.mk [[1, 2, 3]] 1 3) (by simp)⟩

/-- Exhausting a `ChannelSamplesIterator` yields, in order, the
`Option`-valued unchecked reads `buffers[ch][current_sample]` for the
channels from `current_channel` on, and leaves the iterator with `next`
returning `None`. -/
theorem channelSamplesIterator_run_spec (it : ChannelSamplesIterator) :
    it.run.1 = (it.buffers.drop it.current_channel).map
        (fun ch => ch.get? it.current_sample) ∧
    it.run.2.next = none := by
  obtain ⟨n, hn⟩ : ∃ n, it.buffers.length - it.current_channel = n := ⟨_, rfl⟩
  induction n generalizing it with
  | zero =>
    have hge : ¬ it.current_channel < it.buffers.length := by omega
    rw [ChannelSamplesIterator.run.eq_def]
    simp [hge, ChannelSamplesIterator.next,
      List.drop_eq_nil_of_le (by omega : it.buffers.length ≤ it.current_channel)]
  | succ n ih =>
    have hlt : it.current_channel < it.buffers.length := by omega
    obtain ⟨ih1, ih2⟩ := ih ⟨it.buffers, it.current_sample, it.current_channel + 1⟩
      (by simp; omega)
    rw [ChannelSamplesIterator.run.eq_def]
    simp only [hlt, dite_true]
    refine ⟨?_, ih2⟩
    rw [List.drop_eq_getElem_cons hlt, List.map_cons, ih1]
    simp [List.get?_eq_getElem?, List.getElem?_eq_getElem hlt]

/-- C10: for every `ChannelSamples` view whose sample index is a valid index
into every channel (the equal-channel-length precondition), iterating it
yields exactly one sample per channel, in channel order `0 .. buffers.len()`,
and the unchecked double indexing in `ChannelSamplesIterator::next` never
goes out of bounds: in the total embedding each yielded `Option` read is
`isSome`, i.e. the `None` branch of the indexing is unreachable. -/
theorem channel_samples_iteration (cs : ChannelSamples)
    (h : ∀ ch ∈ cs.buffers, cs.current_sample < ch.length) :
    cs.intoIter.run.1 = cs.buffers.map (fun ch => ch.get? cs.current_sample) ∧
    (∀ x ∈ cs.intoIter.run.1, x.isSome = true) ∧
    cs.intoIter.run.2.next = none := by
  have h1 : cs.intoIter.run.1
      = cs.buffers.map (fun ch => ch.get? cs.current_sample) := by
    have hspec := (channelSamplesIterator_run_spec cs.intoIter).1
    simpa [ChannelSamples.intoIter] using hspec
  have h2 : cs.intoIter.run.2.next = none :=
    (channelSamplesIterator_run_spec cs.intoIter).2
  refine ⟨h1, ?_, h2⟩
  intro x hx
  rw [h1] at hx
  simp only [List.mem_map] at hx
  obtain ⟨ch, hch, rfl⟩ := hx
  rw [List.get?_eq_getElem?, List.getElem?_eq_getElem (h ch hch)]
  rfl

/-- Witness for C10: the view at sample index 1 of two channels of length 2. -/
theorem channel_samples_iteration_witness :
    (∀ ch ∈ (ChannelSamples.mk [[1, 2], [3, 4]] 1).buffers,
      (ChannelSamples.mk [[1, 2], [3, 4]] 1).current_sample < ch.length) ∧
    ((ChannelSamples.mk [[1, 2], [3, 4]] 1).intoIter.run.1
        = [[(1 : ℝ), 2], [3, 4]].map (fun ch => ch.get? 1) ∧
      (∀ x ∈ (ChannelSamples.mk [[1, 2], [3, 4]] 1).intoIter.run.1,
        x.isSome = true) ∧
      (ChannelSamples.mk [[1, 2], [3, 4]] 1).intoIter.run.2.next = none) :=
  ⟨by simp, channel_samples_iteration (ChannelSamples.mk [[1, 2], [3, 4]] 1)
    (by simp)⟩
